import Mathlib

/-!
Verification of the `wasm-contract` core of wapm-cli
(src/lib/wasm-contract/src/contract.rs).

The Rust code stores a contract as two `HashMap`s:
`imports : HashMap<(String, String), Import>` and
`exports : HashMap<String, Export>`.  We embed each hash map as an
association list whose keys are unique (the `NodupKeys` predicate below
captures the hash-map invariant); lookup is first-match, which coincides
with hash-map lookup under that invariant.  `Contract::merge` iterates
over the entries of `other`, checking each key against the accumulating
`base` map, exactly as the Rust loops do.
-/

/-- Primitive wasm type (`enum WasmType` in contract.rs). -/
inductive WasmType where
  | I32
  | I64
  | F32
  | F64
deriving DecidableEq, Repr

/-- Rust `derive(Debug)` rendering of a `WasmType` value. -/
def WasmType.debugFmt : WasmType → String
  | .I32 => "I32"
  | .I64 => "I64"
  | .F32 => "F32"
  | .F64 => "F64"

/-- Rust `Display` for `WasmType` (lowercase mnemonic). -/
def WasmType.display : WasmType → String
  | .I32 => "i32"
  | .I64 => "i64"
  | .F32 => "f32"
  | .F64 => "f64"

/-- Rust `derive(Debug)` rendering of a `Vec<WasmType>`. -/
def debugFmtList (xs : List WasmType) : String :=
  "[" ++ String.intercalate ", " (xs.map WasmType.debugFmt) ++ "]"

/-- Rust `derive(Debug)` rendering of a `String` (quoted). -/
def debugFmtString (s : String) : String :=
  "\"" ++ s ++ "\""

/-- Things that the module can import (`enum Import` in contract.rs).
The Rust field `namespace` is spelled `ns` here because `namespace` is a
Lean keyword. -/
inductive Import where
  | Func (ns name : String) (params result : List WasmType)
  | Global (ns name : String) (var_type : WasmType)
deriving DecidableEq

/-- Rust `derive(Debug)` rendering of an `Import` value. -/
def Import.debugFmt : Import → String
  | .Func ns name params result =>
      "Func \x7b namespace: " ++ debugFmtString ns ++ ", name: " ++ debugFmtString name ++
        ", params: " ++ debugFmtList params ++ ", result: " ++ debugFmtList result ++ " \x7d"
  | .Global ns name var_type =>
      "Global \x7b namespace: " ++ debugFmtString ns ++ ", name: " ++ debugFmtString name ++
        ", var_type: " ++ var_type.debugFmt ++ " \x7d"

/-- `Import::format_key`: builds the `(namespace, name)` pair. -/
def Import.format_key (ns name : String) : String × String :=
  (ns, name)

/-- `Import::get_key`: the key used to look this import up in the
Contract import hashmap. -/
def Import.get_key : Import → String × String
  | .Func ns name _ _ => Import.format_key ns name
  | .Global ns name _ => Import.format_key ns name

/-- Things that the module must export (`enum Export` in contract.rs). -/
inductive Export where
  | Func (name : String) (params result : List WasmType)
  | Global (name : String) (var_type : WasmType)
deriving DecidableEq

/-- Rust `derive(Debug)` rendering of an `Export` value. -/
def Export.debugFmt : Export → String
  | .Func name params result =>
      "Func \x7b name: " ++ debugFmtString name ++
        ", params: " ++ debugFmtList params ++ ", result: " ++ debugFmtList result ++ " \x7d"
  | .Global name var_type =>
      "Global \x7b name: " ++ debugFmtString name ++
        ", var_type: " ++ var_type.debugFmt ++ " \x7d"

/-- `Export::format_key`: the name itself. -/
def Export.format_key (name : String) : String :=
  name

/-- `Export::get_key`: the key used to look this export up in the
Contract export hashmap. -/
def Export.get_key : Export → String
  | .Func name _ _ => Export.format_key name
  | .Global name _ => Export.format_key name

/-- First-match lookup in an association list; under unique keys this is
exactly `HashMap` lookup (`contains_key` / `Index`). -/
def mapGet {α β : Type} [DecidableEq α] : List (α × β) → α → Option β
  | [], _ => none
  | (k, v) :: rest, key => if key = k then some v else mapGet rest key

/-- The keys of an association list. -/
def keysOf {α β : Type} (xs : List (α × β)) : List α :=
  xs.map Prod.fst

/-- Hash-map invariant: no two entries share a key. -/
def NodupKeys {α β : Type} (xs : List (α × β)) : Prop :=
  (keysOf xs).Nodup

instance {α β : Type} [DecidableEq α] (xs : List (α × β)) : Decidable (NodupKeys xs) :=
  inferInstanceAs (Decidable (keysOf xs).Nodup)

/-- The body of each of the two loops of `Contract::merge`: walk the
entries of `other`, and for each entry either detect it is already
present (no-op when the stored definition is equal, error when it
differs) or insert it into the accumulating `base` map.  `errMsg` builds
the conflict message from the key, the stored definition and the
incoming definition. -/
def mergeMap {α β : Type} [DecidableEq α] [DecidableEq β]
    (errMsg : α → β → β → String) :
    List (α × β) → List (α × β) → Except String (List (α × β))
  | base, [] => .ok base
  | base, (key, val) :: rest =>
    match mapGet base key with
    | some stored =>
        if val ≠ stored then .error (errMsg key stored val)
        else mergeMap errMsg base rest
    | none => mergeMap errMsg (base ++ [(key, val)]) rest

/-- The conflict message of the import loop of `Contract::merge`. -/
def importConflictMsg (key : String × String) (stored incoming : Import) : String :=
  "Conflict detected: the import " ++ debugFmtString key.1 ++ " " ++ debugFmtString key.2 ++
    " was found but the definitions were different: " ++
    stored.debugFmt ++ " " ++ incoming.debugFmt

/-- The conflict message of the export loop of `Contract::merge`. -/
def exportConflictMsg (key : String) (stored incoming : Export) : String :=
  "Conflict detected: the key " ++ key ++
    " was found in exports but the definitions were different: " ++
    stored.debugFmt ++ " " ++ incoming.debugFmt

/-- The definition of a WASM contract (`struct Contract` in contract.rs):
things the module can import, keyed by `(namespace, name)`, and things
the module must export, keyed by name. -/
structure Contract where
  imports : List ((String × String) × Import)
  exports : List (String × Export)
deriving DecidableEq

/-- Rust `derive(Default)`: both maps empty. -/
instance : Inhabited Contract :=
  ⟨{ imports := [], exports := [] }⟩

/-- `Contract::merge`: clone `self` into `base`, fold the imports of
`other` into `base.imports` (first loop), then the exports of `other`
into `base.exports` (second loop), returning the first conflict as an
error. -/
def Contract.merge (self other : Contract) : Except String Contract :=
  let base := self
  match mergeMap importConflictMsg base.imports other.imports with
  | .error e => .error e
  | .ok imports =>
    match mergeMap exportConflictMsg base.exports other.exports with
    | .error e => .error e
    | .ok exports => .ok { imports := imports, exports := exports }

/-- A call to `Contract::merge` through a `&self` receiver: the receiver
value after the call is returned together with the result.  The body
clones `self` into the mutable `base` and never writes through `self`,
so the receiver component is the untouched input. -/
def Contract.mergeCall (self other : Contract) : Contract × Except String Contract :=
  (self, self.merge other)

/-- Well-formedness transported from `HashMap`: keys are unique in each
of the two maps of a contract. -/
def Contract.wf (c : Contract) : Prop :=
  NodupKeys c.imports ∧ NodupKeys c.exports

instance (c : Contract) : Decidable c.wf :=
  inferInstanceAs (Decidable (_ ∧ _))

/-- Specification predicate: the two association lists disagree on some
shared key. -/
def mapsConflict {α β : Type} [DecidableEq α] (xs ys : List (α × β)) : Prop :=
  ∃ k v w, mapGet xs k = some v ∧ mapGet ys k = some w ∧ v ≠ w

/-- Specification predicate: every entry of `ys` whose key also occurs
in `xs` carries the same value there (decidable form). -/
def mapsAgree {α β : Type} [DecidableEq α] [DecidableEq β] (xs ys : List (α × β)) : Prop :=
  ∀ p ∈ ys, mapGet xs p.1 = none ∨ mapGet xs p.1 = some p.2

instance {α β : Type} [DecidableEq α] [DecidableEq β] (xs ys : List (α × β)) :
    Decidable (mapsAgree xs ys) :=
  inferInstanceAs (Decidable (∀ p ∈ ys, _ ∨ _))

/-- Specification predicate: some import key or some export key is
shared by the two contracts with structurally unequal entities. -/
def Contract.conflictsWith (A B : Contract) : Prop :=
  mapsConflict A.imports B.imports ∨ mapsConflict A.exports B.exports

/-- Specification predicate: equality of contracts as `HashMap` values,
i.e. the two import maps and the two export maps agree on every key. -/
def Contract.equiv (A B : Contract) : Prop :=
  (∀ k, mapGet A.imports k = mapGet B.imports k) ∧
    (∀ k, mapGet A.exports k = mapGet B.exports k)

/-- Specification predicate: every entry of both maps stores an entity
whose derived key is the key it is filed under. -/
def Contract.keyConsistent (c : Contract) : Prop :=
  (∀ p ∈ c.imports, p.2.get_key = p.1) ∧ (∀ p ∈ c.exports, p.2.get_key = p.1)

instance (c : Contract) : Decidable c.keyConsistent :=
  inferInstanceAs (Decidable (_ ∧ _))

/-! ### Basic facts about association-list lookup -/

theorem mapGet_cons {α β : Type} [DecidableEq α] (a : α) (b : β) (xs : List (α × β)) (k : α) :
    mapGet ((a, b) :: xs) k = if k = a then some b else mapGet xs k := rfl

theorem mapGet_append {α β : Type} [DecidableEq α] (xs ys : List (α × β)) (k : α) :
    mapGet (xs ++ ys) k = (mapGet xs k).or (mapGet ys k) := by
  induction xs with
  | nil => simp [mapGet]
  | cons p rest ih =>
    obtain ⟨a, b⟩ := p
    by_cases h : k = a <;> simp [mapGet, h, ih]

theorem mem_of_mapGet_eq_some {α β : Type} [DecidableEq α] {xs : List (α × β)} {k : α} {v : β}
    (h : mapGet xs k = some v) : (k, v) ∈ xs := by
  induction xs with
  | nil => simp [mapGet] at h
  | cons p rest ih =>
    obtain ⟨a, b⟩ := p
    rw [mapGet_cons] at h
    by_cases hk : k = a
    · rw [if_pos hk] at h
      subst hk
      obtain rfl : b = v := Option.some_inj.mp h
      exact List.mem_cons_self _ _
    · rw [if_neg hk] at h
      exact List.mem_cons_of_mem _ (ih h)

theorem mem_keysOf_of_mem {α β : Type} {xs : List (α × β)} {p : α × β} (h : p ∈ xs) :
    p.1 ∈ keysOf xs :=
  List.mem_map_of_mem Prod.fst h

theorem mapGet_eq_none {α β : Type} [DecidableEq α] {xs : List (α × β)} {k : α} :
    mapGet xs k = none ↔ k ∉ keysOf xs := by
  induction xs with
  | nil => simp [mapGet, keysOf]
  | cons p rest ih =>
    obtain ⟨a, b⟩ := p
    by_cases hk : k = a <;> simp [mapGet_cons, hk, keysOf, ih] at *

theorem mapGet_isSome_of_mem_keys {α β : Type} [DecidableEq α] {xs : List (α × β)} {k : α}
    (h : k ∈ keysOf xs) : ∃ v, mapGet xs k = some v := by
  cases ho : mapGet xs k with
  | none => exact absurd (mapGet_eq_none.mp ho) (by simp [h])
  | some v => exact ⟨v, rfl⟩

theorem nodupKeys_cons {α β : Type} {a : α} {b : β} {xs : List (α × β)} :
    NodupKeys ((a, b) :: xs) ↔ a ∉ keysOf xs ∧ NodupKeys xs := by
  simp [NodupKeys, keysOf]

theorem mapGet_eq_some_of_mem {α β : Type} [DecidableEq α] {xs : List (α × β)} {k : α} {v : β}
    (hnd : NodupKeys xs) (hm : (k, v) ∈ xs) : mapGet xs k = some v := by
  induction xs with
  | nil => simp at hm
  | cons p rest ih =>
    obtain ⟨a, b⟩ := p
    obtain ⟨ha, hrest⟩ := nodupKeys_cons.mp hnd
    rcases List.mem_cons.mp hm with heq | hmem
    · obtain ⟨rfl, rfl⟩ := Prod.mk.injEq .. ▸ heq
      simp [mapGet_cons]
    · have hk : k ≠ a := by
        intro h
        subst h
        exact ha (mem_keysOf_of_mem hmem)
      rw [mapGet_cons, if_neg hk]
      exact ih hrest hmem

theorem keysOf_append {α β : Type} (xs ys : List (α × β)) :
    keysOf (xs ++ ys) = keysOf xs ++ keysOf ys := by
  simp [keysOf]

theorem nodupKeys_append_singleton {α β : Type} {base : List (α × β)} {key : α} {val : β}
    (hb : NodupKeys base) (hk : key ∉ keysOf base) :
    NodupKeys (base ++ [(key, val)]) := by
  unfold NodupKeys at *
  rw [keysOf_append]
  refine hb.append (by simp [keysOf]) ?_
  intro a ha hmem
  obtain rfl : a = key := by simpa [keysOf] using hmem
  exact hk ha

/-! ### Unfolding equations for the merge loop -/

theorem mergeMap_nil {α β : Type} [DecidableEq α] [DecidableEq β]
    (errMsg : α → β → β → String) (base : List (α × β)) :
    mergeMap errMsg base [] = .ok base := rfl

theorem mergeMap_cons {α β : Type} [DecidableEq α] [DecidableEq β]
    (errMsg : α → β → β → String) (base : List (α × β)) (key : α) (val : β)
    (rest : List (α × β)) :
    mergeMap errMsg base ((key, val) :: rest) =
      match mapGet base key with
      | some stored =>
          if val ≠ stored then .error (errMsg key stored val)
          else mergeMap errMsg base rest
      | none => mergeMap errMsg (base ++ [(key, val)]) rest := rfl

/-! ### What a successful merge loop returns -/

theorem mergeMap_ok_mapGet {α β : Type} [DecidableEq α] [DecidableEq β]
    {errMsg : α → β → β → String} {l base r : List (α × β)}
    (h : mergeMap errMsg base l = .ok r) (k : α) :
    mapGet r k = (mapGet base k).or (mapGet l k) := by
  induction l generalizing base with
  | nil =>
    obtain rfl : base = r := by simpa [mergeMap_nil] using h
    simp [mapGet]
  | cons p rest ih =>
    obtain ⟨key, val⟩ := p
    rw [mergeMap_cons] at h
    split at h
    · rename_i stored hbk
      split at h
      · exact absurd h (by simp)
      · rename_i hv
        have hvs : val = stored := not_not.mp hv
        rw [ih h, mapGet_cons]
        by_cases hk : k = key <;> simp [hk, hbk, hvs]
    · rename_i hbk
      rw [ih h, mapGet_append, mapGet_cons]
      by_cases hk : k = key <;> simp [mapGet, hk, hbk, Option.or_assoc]

theorem mergeMap_ok_mem {α β : Type} [DecidableEq α] [DecidableEq β]
    {errMsg : α → β → β → String} {l base r : List (α × β)}
    (h : mergeMap errMsg base l = .ok r) :
    ∀ p ∈ r, p ∈ base ∨ p ∈ l := by
  induction l generalizing base with
  | nil =>
    obtain rfl : base = r := by simpa [mergeMap_nil] using h
    exact fun p hp => Or.inl hp
  | cons q rest ih =>
    obtain ⟨key, val⟩ := q
    rw [mergeMap_cons] at h
    split at h
    · rename_i stored hbk
      split at h
      · exact absurd h (by simp)
      · intro p hp
        rcases ih h p hp with hb | hr
        · exact Or.inl hb
        · exact Or.inr (List.mem_cons_of_mem _ hr)
    · rename_i hbk
      intro p hp
      rcases ih h p hp with hb | hr
      · rcases List.mem_append.mp hb with hb1 | hb2
        · exact Or.inl hb1
        · exact Or.inr (List.mem_cons.mpr (Or.inl (List.mem_singleton.mp hb2)))
      · exact Or.inr (List.mem_cons_of_mem _ hr)

theorem mergeMap_ok_nodup {α β : Type} [DecidableEq α] [DecidableEq β]
    {errMsg : α → β → β → String} {l base r : List (α × β)}
    (hb : NodupKeys base) (h : mergeMap errMsg base l = .ok r) :
    NodupKeys r := by
  induction l generalizing base with
  | nil =>
    obtain rfl : base = r := by simpa [mergeMap_nil] using h
    exact hb
  | cons q rest ih =>
    obtain ⟨key, val⟩ := q
    rw [mergeMap_cons] at h
    split at h
    · rename_i stored hbk
      split at h
      · exact absurd h (by simp)
      · exact ih hb h
    · rename_i hbk
      refine ih (nodupKeys_append_singleton hb (mapGet_eq_none.mp hbk)) h

/-! ### Length of a successful merge loop result -/

theorem mergeMap_ok_length {α β : Type} [DecidableEq α] [DecidableEq β]
    {errMsg : α → β → β → String} {l base r : List (α × β)}
    (hl : NodupKeys l) (h : mergeMap errMsg base l = .ok r) :
    r.length = base.length + (l.filter fun p => (mapGet base p.1).isNone).length := by
  induction l generalizing base with
  | nil =>
    obtain rfl : base = r := by simpa [mergeMap_nil] using h
    simp
  | cons q rest ih =>
    obtain ⟨key, val⟩ := q
    obtain ⟨hknr, hrest⟩ := nodupKeys_cons.mp hl
    rw [mergeMap_cons] at h
    split at h
    · rename_i stored hbk
      split at h
      · exact absurd h (by simp)
      · rw [ih hrest h]
        simp [List.filter_cons, hbk]
    · rename_i hbk
      rw [ih hrest h]
      have hfilter :
          (rest.filter fun p => (mapGet (base ++ [(key, val)]) p.1).isNone) =
            rest.filter fun p => (mapGet base p.1).isNone := by
        refine List.filter_congr fun p hp => ?_
        have hpk : p.1 ≠ key := by
          intro hcontra
          exact hknr (hcontra ▸ mem_keysOf_of_mem hp)
        rw [mapGet_append]
        simp [mapGet, hpk]
      rw [hfilter]
      simp only [List.length_append, List.filter_cons, hbk]
      simp [Nat.add_assoc, Nat.add_comm 1]

/-! ### Error characterization of the merge loop -/

theorem mergeMap_error_of_conflict {α β : Type} [DecidableEq α] [DecidableEq β]
    (errMsg : α → β → β → String) {l base : List (α × β)}
    (hl : NodupKeys l) (hc : mapsConflict base l) :
    ∃ e, mergeMap errMsg base l = .error e := by
  induction l generalizing base with
  | nil =>
    obtain ⟨k, v, w, _, hlk, _⟩ := hc
    simp [mapGet] at hlk
  | cons q rest ih =>
    obtain ⟨key, val⟩ := q
    obtain ⟨hknr, hrest⟩ := nodupKeys_cons.mp hl
    obtain ⟨k, v, w, hbk2, hlk, hvw⟩ := hc
    cases hbk : mapGet base key with
    | some stored =>
      by_cases hv : val = stored
      · have hk : k ≠ key := by
          intro hcontra
          subst hcontra
          rw [mapGet_cons, if_pos rfl] at hlk
          obtain rfl : val = w := Option.some_inj.mp hlk
          rw [hbk2] at hbk
          obtain rfl : v = stored := Option.some_inj.mp hbk
          exact hvw (hv.symm ▸ rfl)
        rw [mapGet_cons, if_neg hk] at hlk
        obtain ⟨e, he⟩ := ih hrest ⟨k, v, w, hbk2, hlk, hvw⟩
        exact ⟨e, by rw [mergeMap_cons, hbk]; simp [hv, he]⟩
      · exact ⟨errMsg key stored val, by rw [mergeMap_cons, hbk]; simp [hv]⟩
    | none =>
      have hk : k ≠ key := by
        intro hcontra
        subst hcontra
        rw [hbk] at hbk2
        exact Option.noConfusion hbk2
      rw [mapGet_cons, if_neg hk] at hlk
      have hbk2' : mapGet (base ++ [(key, val)]) k = some v := by
        rw [mapGet_append, hbk2]
        rfl
      obtain ⟨e, he⟩ := ih hrest ⟨k, v, w, hbk2', hlk, hvw⟩
      exact ⟨e, by rw [mergeMap_cons, hbk]; simpa using he⟩

theorem mergeMap_conflict_of_error {α β : Type} [DecidableEq α] [DecidableEq β]
    {errMsg : α → β → β → String} {l base : List (α × β)} {e : String}
    (hl : NodupKeys l) (h : mergeMap errMsg base l = .error e) :
    mapsConflict base l := by
  induction l generalizing base e with
  | nil => simp [mergeMap_nil] at h
  | cons q rest ih =>
    obtain ⟨key, val⟩ := q
    obtain ⟨hknr, hrest⟩ := nodupKeys_cons.mp hl
    rw [mergeMap_cons] at h
    split at h
    · rename_i stored hbk
      split at h
      · rename_i hv
        refine ⟨key, stored, val, hbk, ?_, fun hcontra => hv (hcontra.symm ▸ rfl)⟩
        rw [mapGet_cons, if_pos rfl]
      · rename_i hv
        obtain ⟨k, v, w, hbk2, hrk, hvw⟩ := ih hrest h
        have hk : k ≠ key := by
          intro hcontra
          subst hcontra
          have : k ∈ keysOf rest := mem_keysOf_of_mem (mem_of_mapGet_eq_some hrk)
          exact hknr this
        exact ⟨k, v, w, hbk2, by rwa [mapGet_cons, if_neg hk], hvw⟩
    · rename_i hbk
      obtain ⟨k, v, w, hbk2, hrk, hvw⟩ := ih hrest h
      have hk : k ≠ key := by
        intro hcontra
        subst hcontra
        exact hknr (mem_keysOf_of_mem (mem_of_mapGet_eq_some hrk))
      rw [mapGet_append] at hbk2
      have hsing : mapGet [(key, val)] k = none := by simp [mapGet, hk]
      rw [hsing, Option.or_none] at hbk2
      exact ⟨k, v, w, hbk2, by rwa [mapGet_cons, if_neg hk], hvw⟩

/-! ### Special runs of the merge loop -/

theorem mergeMap_of_lookup_eq {α β : Type} [DecidableEq α] [DecidableEq β]
    (errMsg : α → β → β → String) {l base : List (α × β)}
    (hsub : ∀ p ∈ l, mapGet base p.1 = some p.2) :
    mergeMap errMsg base l = .ok base := by
  induction l with
  | nil => exact mergeMap_nil errMsg base
  | cons q rest ih =>
    obtain ⟨key, val⟩ := q
    have hhead : mapGet base key = some val := hsub (key, val) (List.mem_cons_self _ _)
    rw [mergeMap_cons, hhead]
    simp only [ne_eq, not_true_eq_false, if_neg (by simp : ¬val ≠ val)]
    exact ih fun p hp => hsub p (List.mem_cons_of_mem _ hp)

theorem mergeMap_self {α β : Type} [DecidableEq α] [DecidableEq β]
    (errMsg : α → β → β → String) {xs : List (α × β)} (hnd : NodupKeys xs) :
    mergeMap errMsg xs xs = .ok xs :=
  mergeMap_of_lookup_eq errMsg fun p hp =>
    (Prod.mk.eta (p := p)) ▸ mapGet_eq_some_of_mem hnd (Prod.mk.eta (p := p) ▸ hp)

theorem mergeMap_disjoint_append {α β : Type} [DecidableEq α] [DecidableEq β]
    (errMsg : α → β → β → String) {l base : List (α × β)}
    (hl : NodupKeys l) (hdisj : ∀ p ∈ l, mapGet base p.1 = none) :
    mergeMap errMsg base l = .ok (base ++ l) := by
  induction l generalizing base with
  | nil => simp [mergeMap_nil]
  | cons q rest ih =>
    obtain ⟨key, val⟩ := q
    obtain ⟨hknr, hrest⟩ := nodupKeys_cons.mp hl
    have hhead : mapGet base key = none := hdisj (key, val) (List.mem_cons_self _ _)
    rw [mergeMap_cons, hhead]
    have hdisj2 : ∀ p ∈ rest, mapGet (base ++ [(key, val)]) p.1 = none := by
      intro p hp
      have hpk : p.1 ≠ key := fun hcontra => hknr (hcontra ▸ mem_keysOf_of_mem hp)
      rw [mapGet_append, hdisj p (List.mem_cons_of_mem _ hp)]
      simp [mapGet, hpk]
    rw [ih hrest hdisj2]
    simp

/-! ### Agreement and conflict -/

theorem not_conflict_of_agree {α β : Type} [DecidableEq α] [DecidableEq β]
    {xs ys : List (α × β)} (ha : mapsAgree xs ys) : ¬ mapsConflict xs ys := by
  rintro ⟨k, v, w, hx, hy, hvw⟩
  rcases ha (k, w) (mem_of_mapGet_eq_some hy) with hnone | hsome
  · rw [hx] at hnone
    exact Option.noConfusion hnone
  · rw [hx] at hsome
    exact hvw (Option.some_inj.mp hsome)

theorem agree_of_not_conflict {α β : Type} [DecidableEq α] [DecidableEq β]
    {xs ys : List (α × β)} (hy : NodupKeys ys) (hnc : ¬ mapsConflict xs ys) :
    mapsAgree xs ys := by
  intro p hp
  cases hx : mapGet xs p.1 with
  | none => exact Or.inl rfl
  | some v =>
    refine Or.inr ?_
    by_contra hne
    have hvp : v ≠ p.2 := fun hcontra => hne (by rw [hcontra])
    exact hnc ⟨p.1, v, p.2, hx, mapGet_eq_some_of_mem hy (Prod.mk.eta (p := p) ▸ hp), hvp⟩

theorem mapsAgree_symm {α β : Type} [DecidableEq α] [DecidableEq β]
    {xs ys : List (α × β)} (hx : NodupKeys xs) (ha : mapsAgree xs ys) :
    mapsAgree ys xs := by
  intro p hp
  cases ho : mapGet ys p.1 with
  | none => exact Or.inl rfl
  | some w =>
    refine Or.inr ?_
    rcases ha (p.1, w) (mem_of_mapGet_eq_some ho) with hnone | hsome
    · rw [mapGet_eq_some_of_mem hx (Prod.mk.eta (p := p) ▸ hp)] at hnone
      exact Option.noConfusion hnone
    · rw [mapGet_eq_some_of_mem hx (Prod.mk.eta (p := p) ▸ hp)] at hsome
      exact hsome.symm

/-! ### Contract-level merge facts -/

theorem merge_def (A B : Contract) :
    A.merge B =
      match mergeMap importConflictMsg A.imports B.imports with
      | .error e => .error e
      | .ok imports =>
        match mergeMap exportConflictMsg A.exports B.exports with
        | .error e => .error e
        | .ok exports => .ok { imports := imports, exports := exports } := rfl

theorem merge_total (A B : Contract) :
    (∃ e, A.merge B = .error e) ∨ ∃ C, A.merge B = .ok C := by
  cases h : A.merge B with
  | error e => exact Or.inl ⟨e, rfl⟩
  | ok C => exact Or.inr ⟨C, rfl⟩

theorem contract_merge_ok_elim {A B C : Contract} (h : A.merge B = .ok C) :
    mergeMap importConflictMsg A.imports B.imports = .ok C.imports ∧
      mergeMap exportConflictMsg A.exports B.exports = .ok C.exports := by
  rw [merge_def] at h
  split at h
  · exact absurd h (by simp)
  · rename_i i h1
    split at h
    · exact absurd h (by simp)
    · rename_i x h2
      obtain rfl : Contract.mk i x = C := by
        have := Except.ok.inj h
        exact this
      exact ⟨h1, h2⟩

theorem contract_merge_error_iff (A B : Contract) (hB : B.wf) :
    (∃ e, A.merge B = .error e) ↔ A.conflictsWith B := by
  constructor
  · rintro ⟨e, he⟩
    rw [merge_def] at he
    split at he
    · rename_i e1 h1
      obtain rfl : e1 = e := Except.error.inj he
      exact Or.inl (mergeMap_conflict_of_error hB.1 h1)
    · split at he
      · rename_i e1 h2
        obtain rfl : e1 = e := Except.error.inj he
        exact Or.inr (mergeMap_conflict_of_error hB.2 h2)
      · exact absurd he (by simp)
  · intro hc
    rcases hc with hci | hce
    · obtain ⟨e, he⟩ := mergeMap_error_of_conflict importConflictMsg hB.1 hci
      exact ⟨e, by rw [merge_def, he]⟩
    · cases h1 : mergeMap importConflictMsg A.imports B.imports with
      | error e => exact ⟨e, by rw [merge_def, h1]⟩
      | ok i =>
        obtain ⟨e, he⟩ := mergeMap_error_of_conflict exportConflictMsg hB.2 hce
        exact ⟨e, by rw [merge_def, h1, he]⟩

theorem contract_merge_ok_of_agree (A B : Contract) (hB : B.wf)
    (hai : mapsAgree A.imports B.imports) (hae : mapsAgree A.exports B.exports) :
    ∃ C, A.merge B = .ok C := by
  rcases merge_total A B with ⟨e, he⟩ | hok
  · exfalso
    rcases (contract_merge_error_iff A B hB).mp ⟨e, he⟩ with hci | hce
    · exact not_conflict_of_agree hai hci
    · exact not_conflict_of_agree hae hce
  · exact hok

theorem mapsConflict_symm {α β : Type} [DecidableEq α] {xs ys : List (α × β)}
    (h : mapsConflict xs ys) : mapsConflict ys xs := by
  obtain ⟨k, v, w, hx, hy, hvw⟩ := h
  exact ⟨k, w, v, hy, hx, hvw.symm⟩

theorem conflictsWith_symm {A B : Contract} (h : A.conflictsWith B) : B.conflictsWith A := by
  rcases h with hi | he
  · exact Or.inl (mapsConflict_symm hi)
  · exact Or.inr (mapsConflict_symm he)

theorem or_comm_of_agree {α β : Type} [DecidableEq α] [DecidableEq β]
    {xs ys : List (α × β)} (ha : mapsAgree xs ys) (k : α) :
    (mapGet xs k).or (mapGet ys k) = (mapGet ys k).or (mapGet xs k) := by
  cases hx : mapGet xs k with
  | none => simp
  | some v =>
    cases hy2 : mapGet ys k with
    | none => simp
    | some w =>
      rcases ha (k, w) (mem_of_mapGet_eq_some hy2) with hnone | hsome
      · rw [hx] at hnone
        exact Option.noConfusion hnone
      · rw [hx] at hsome
        rw [Option.some_inj.mp hsome]

/-! ### The six contracts of the `merging_works` test of contract.rs -/

/-- Contract asserting the import of `env.plus_one (i32) -> i32`. -/
def contract1 : Contract :=
  { imports := [(("env", "plus_one"), .Func "env" "plus_one" [.I32] [.I32])], exports := [] }

/-- Contract asserting the import of `env.plus_one (i64) -> i64`. -/
def contract2 : Contract :=
  { imports := [(("env", "plus_one"), .Func "env" "plus_one" [.I64] [.I64])], exports := [] }

/-- Contract asserting the import of `env.times_two (i64) -> i64`. -/
def contract3 : Contract :=
  { imports := [(("env", "times_two"), .Func "env" "times_two" [.I64] [.I64])], exports := [] }

/-- Contract asserting the import of `env.times_two (i64, i64) -> i64`. -/
def contract4 : Contract :=
  { imports := [(("env", "times_two"), .Func "env" "times_two" [.I64, .I64] [.I64])],
    exports := [] }

/-- Contract asserting the export of `empty_bank_account () -> ()`. -/
def contract5 : Contract :=
  { imports := [], exports := [("empty_bank_account", .Func "empty_bank_account" [] [])] }

/-- Contract asserting the export of `empty_bank_account () -> i64`. -/
def contract6 : Contract :=
  { imports := [], exports := [("empty_bank_account", .Func "empty_bank_account" [] [.I64])] }

/-! ### The claims -/

/-- C1: for every pair of contracts (hash maps have unique keys, which
`Contract.wf` transports to the embedding), `Contract::merge` returns an
error exactly when some import key is present in both import maps with
structurally unequal entities or some export key is present in both
export maps with structurally unequal entities; otherwise it returns
`Ok` with the union of the two maps: the lookup of any key in the result
is the lookup in the base or else the lookup in the incoming contract.
The conflict diagnostic is the only error the operation produces (the
error branch of the sum type carries nothing but the conflict string). -/
theorem C1_merge_error_iff_conflict (A B : Contract) (_hA : A.wf) (hB : B.wf) :
    ((∃ e, A.merge B = .error e) ↔ A.conflictsWith B) ∧
      (¬ A.conflictsWith B →
        ∃ C, A.merge B = .ok C ∧
          (∀ k, mapGet C.imports k = (mapGet A.imports k).or (mapGet B.imports k)) ∧
          (∀ k, mapGet C.exports k = (mapGet A.exports k).or (mapGet B.exports k))) := by
  refine ⟨contract_merge_error_iff A B hB, fun hnc => ?_⟩
  rcases merge_total A B with herr | ⟨C, hok⟩
  · exact absurd ((contract_merge_error_iff A B hB).mp herr) hnc
  · obtain ⟨h1, h2⟩ := contract_merge_ok_elim hok
    exact ⟨C, hok, mergeMap_ok_mapGet h1, mergeMap_ok_mapGet h2⟩

/-- C1 witness: the conflicting pair of the `merging_works` test
(`env.plus_one (i32) -> i32` against `env.plus_one (i64) -> i64`). -/
theorem C1_merge_error_iff_conflict_witness :
    contract1.wf ∧ contract2.wf ∧
      (((∃ e, contract1.merge contract2 = .error e) ↔ contract1.conflictsWith contract2) ∧
        (¬ contract1.conflictsWith contract2 →
          ∃ C, contract1.merge contract2 = .ok C ∧
            (∀ k, mapGet C.imports k =
              (mapGet contract1.imports k).or (mapGet contract2.imports k)) ∧
            (∀ k, mapGet C.exports k =
              (mapGet contract1.exports k).or (mapGet contract2.exports k)))) :=
  ⟨by decide, by decide,
    C1_merge_error_iff_conflict contract1 contract2 (by decide) (by decide)⟩

/-- C2: merging a contract with an exact copy of itself succeeds and
returns the contract unchanged. -/
theorem C2_merge_self (A : Contract) (hA : A.wf) : A.merge A = .ok A := by
  rw [merge_def, mergeMap_self importConflictMsg hA.1, mergeMap_self exportConflictMsg hA.2]

/-- C2 witness: contract 1 of the `merging_works` test merged with
itself. -/
theorem C2_merge_self_witness : contract1.wf ∧ contract1.merge contract1 = .ok contract1 :=
  ⟨by decide, C2_merge_self contract1 (by decide)⟩

/-- C3: if the two contracts share a key (import or export) with
differing definitions then merging in either direction fails; if every
shared key carries equal definitions then merging in either direction
succeeds and the two results are equal as map values (same lookup on
every key of both maps). -/
theorem C3_merge_symmetry (A B : Contract) (hA : A.wf) (hB : B.wf) :
    (A.conflictsWith B →
      (∃ e, A.merge B = .error e) ∧ ∃ e, B.merge A = .error e) ∧
      ((mapsAgree A.imports B.imports ∧ mapsAgree A.exports B.exports) →
        ∃ C D, A.merge B = .ok C ∧ B.merge A = .ok D ∧ C.equiv D) := by
  constructor
  · intro hc
    exact ⟨(contract_merge_error_iff A B hB).mpr hc,
      (contract_merge_error_iff B A hA).mpr (conflictsWith_symm hc)⟩
  · rintro ⟨hai, hae⟩
    obtain ⟨C, hC⟩ := contract_merge_ok_of_agree A B hB hai hae
    obtain ⟨D, hD⟩ := contract_merge_ok_of_agree B A hA
      (mapsAgree_symm hA.1 hai) (mapsAgree_symm hA.2 hae)
    obtain ⟨hC1, hC2⟩ := contract_merge_ok_elim hC
    obtain ⟨hD1, hD2⟩ := contract_merge_ok_elim hD
    refine ⟨C, D, hC, hD, fun k => ?_, fun k => ?_⟩
    · rw [mergeMap_ok_mapGet hC1 k, mergeMap_ok_mapGet hD1 k, or_comm_of_agree hai k]
    · rw [mergeMap_ok_mapGet hC2 k, mergeMap_ok_mapGet hD2 k, or_comm_of_agree hae k]

/-- C3 witness: contracts 1 and 2 of the `merging_works` test (they
conflict on the import key `("env", "plus_one")`). -/
theorem C3_merge_symmetry_witness :
    contract1.wf ∧ contract2.wf ∧
      ((contract1.conflictsWith contract2 →
        (∃ e, contract1.merge contract2 = .error e) ∧
          ∃ e, contract2.merge contract1 = .error e) ∧
        ((mapsAgree contract1.imports contract2.imports ∧
            mapsAgree contract1.exports contract2.exports) →
          ∃ C D, contract1.merge contract2 = .ok C ∧ contract2.merge contract1 = .ok D ∧
            C.equiv D)) :=
  ⟨by decide, by decide, C3_merge_symmetry contract1 contract2 (by decide) (by decide)⟩

theorem length_filter_key_eq_one {α β : Type} [DecidableEq α] {xs : List (α × β)} {k : α} {v : β}
    (hnd : NodupKeys xs) (hk : mapGet xs k = some v) :
    (xs.filter fun p => p.1 = k).length = 1 := by
  induction xs with
  | nil => simp [mapGet] at hk
  | cons q rest ih =>
    obtain ⟨a, b⟩ := q
    obtain ⟨hanr, hrest⟩ := nodupKeys_cons.mp hnd
    by_cases hka : k = a
    · subst hka
      have hnone : (rest.filter fun p => p.1 = k) = [] := by
        refine List.filter_eq_nil_iff.mpr fun p hp => ?_
        simp only [decide_eq_true_eq]
        exact fun hcontra => hanr (hcontra ▸ mem_keysOf_of_mem hp)
      simp [List.filter_cons, hnone]
    · rw [mapGet_cons, if_neg hka] at hk
      have hne : ¬((a, b).1 = k) := fun hcontra => hka hcontra.symm
      simp only [List.filter_cons, hne, decide_False]
      simpa using ih hrest hk

/-- C4: when the import-key sets and the export-key sets of the two
contracts are disjoint, the merge succeeds and the entry counts of the
result are the sums of the input entry counts; when the two contracts
overlap only in identically defined entries, the merge still succeeds
and a key shared with an identical definition appears exactly once in
the result. -/
theorem C4_disjoint_union_and_dedup (A B : Contract) (hA : A.wf) (hB : B.wf) :
    ((∀ k, mapGet A.imports k = none ∨ mapGet B.imports k = none) →
      (∀ k, mapGet A.exports k = none ∨ mapGet B.exports k = none) →
        ∃ C, A.merge B = .ok C ∧
          C.imports.length = A.imports.length + B.imports.length ∧
          C.exports.length = A.exports.length + B.exports.length) ∧
      ((mapsAgree A.imports B.imports ∧ mapsAgree A.exports B.exports) →
        ∀ k v, mapGet A.imports k = some v → mapGet B.imports k = some v →
          ∃ C, A.merge B = .ok C ∧ (C.imports.filter fun p => p.1 = k).length = 1) := by
  constructor
  · intro hdi hde
    have hagi : mapsAgree A.imports B.imports := by
      intro p hp
      rcases hdi p.1 with h | h
      · exact Or.inl h
      · obtain ⟨w, hw⟩ := mapGet_isSome_of_mem_keys (mem_keysOf_of_mem hp)
        rw [hw] at h
        exact Option.noConfusion h
    have hage : mapsAgree A.exports B.exports := by
      intro p hp
      rcases hde p.1 with h | h
      · exact Or.inl h
      · obtain ⟨w, hw⟩ := mapGet_isSome_of_mem_keys (mem_keysOf_of_mem hp)
        rw [hw] at h
        exact Option.noConfusion h
    obtain ⟨C, hC⟩ := contract_merge_ok_of_agree A B hB hagi hage
    obtain ⟨h1, h2⟩ := contract_merge_ok_elim hC
    refine ⟨C, hC, ?_, ?_⟩
    · rw [mergeMap_ok_length hB.1 h1]
      have : (B.imports.filter fun p => (mapGet A.imports p.1).isNone) = B.imports := by
        refine List.filter_eq_self.mpr fun p hp => ?_
        rcases hdi p.1 with h | h
        · simp [h]
        · obtain ⟨w, hw⟩ := mapGet_isSome_of_mem_keys (mem_keysOf_of_mem hp)
          rw [hw] at h
          exact Option.noConfusion h
      rw [this]
    · rw [mergeMap_ok_length hB.2 h2]
      have : (B.exports.filter fun p => (mapGet A.exports p.1).isNone) = B.exports := by
        refine List.filter_eq_self.mpr fun p hp => ?_
        rcases hde p.1 with h | h
        · simp [h]
        · obtain ⟨w, hw⟩ := mapGet_isSome_of_mem_keys (mem_keysOf_of_mem hp)
          rw [hw] at h
          exact Option.noConfusion h
      rw [this]
  · rintro ⟨hai, hae⟩ k v hak hbk
    obtain ⟨C, hC⟩ := contract_merge_ok_of_agree A B hB hai hae
    obtain ⟨h1, _⟩ := contract_merge_ok_elim hC
    refine ⟨C, hC, ?_⟩
    have hnd : NodupKeys C.imports := mergeMap_ok_nodup hA.1 h1
    have hlook : mapGet C.imports k = some v := by
      rw [mergeMap_ok_mapGet h1 k, hak]
      rfl
    exact length_filter_key_eq_one hnd hlook

/-- C4 witness: contracts 1 and 3 of the `merging_works` test (their
imported keys are disjoint, and they have no exports). -/
theorem C4_disjoint_union_and_dedup_witness :
    contract1.wf ∧ contract3.wf ∧
      (((∀ k, mapGet contract1.imports k = none ∨ mapGet contract3.imports k = none) →
        (∀ k, mapGet contract1.exports k = none ∨ mapGet contract3.exports k = none) →
          ∃ C, contract1.merge contract3 = .ok C ∧
            C.imports.length = contract1.imports.length + contract3.imports.length ∧
            C.exports.length = contract1.exports.length + contract3.exports.length) ∧
        ((mapsAgree contract1.imports contract3.imports ∧
            mapsAgree contract1.exports contract3.exports) →
          ∀ k v, mapGet contract1.imports k = some v → mapGet contract3.imports k = some v →
            ∃ C, contract1.merge contract3 = .ok C ∧
              (C.imports.filter fun p => p.1 = k).length = 1)) :=
  ⟨by decide, by decide,
    C4_disjoint_union_and_dedup contract1 contract3 (by decide) (by decide)⟩

/-- C5: imports and exports occupy separate key spaces that merge
reconciles independently: whenever the two import maps agree on their
shared keys and the two export maps agree on theirs, the merge succeeds
— for any contracts, in particular when an import of one and an export
of the other carry coinciding namespace/name strings — and the two
components of the result are produced by the two independent per-map
loops. -/
theorem C5_import_export_independence (A B : Contract) (hB : B.wf)
    (hai : mapsAgree A.imports B.imports) (hae : mapsAgree A.exports B.exports) :
    ∃ C, A.merge B = .ok C ∧
      mergeMap importConflictMsg A.imports B.imports = .ok C.imports ∧
      mergeMap exportConflictMsg A.exports B.exports = .ok C.exports := by
  obtain ⟨C, hC⟩ := contract_merge_ok_of_agree A B hB hai hae
  obtain ⟨h1, h2⟩ := contract_merge_ok_elim hC
  exact ⟨C, hC, h1, h2⟩

/-- C5 witness: the first contract imports the function
`env.shared (i32) -> i32`, the second exports a global of the very same
name `shared` with a different shape; the merge succeeds. -/
theorem C5_import_export_independence_witness :
    Contract.wf { imports := [], exports := [("shared", .Global "shared" .F64)] } ∧
      mapsAgree (Contract.mk [(("env", "shared"), .Func "env" "shared" [.I32] [.I32])] []).imports
        (Contract.mk [] [("shared", .Global "shared" .F64)]).imports ∧
      mapsAgree (Contract.mk [(("env", "shared"), .Func "env" "shared" [.I32] [.I32])] []).exports
        (Contract.mk [] [("shared", .Global "shared" .F64)]).exports ∧
      ∃ C, (Contract.mk [(("env", "shared"), .Func "env" "shared" [.I32] [.I32])] []).merge
          (Contract.mk [] [("shared", .Global "shared" .F64)]) = .ok C ∧
        mergeMap importConflictMsg
          (Contract.mk [(("env", "shared"), .Func "env" "shared" [.I32] [.I32])] []).imports
          (Contract.mk [] [("shared", .Global "shared" .F64)]).imports = .ok C.imports ∧
        mergeMap exportConflictMsg
          (Contract.mk [(("env", "shared"), .Func "env" "shared" [.I32] [.I32])] []).exports
          (Contract.mk [] [("shared", .Global "shared" .F64)]).exports = .ok C.exports :=
  ⟨by decide, by decide, by decide,
    C5_import_export_independence
      (Contract.mk [(("env", "shared"), .Func "env" "shared" [.I32] [.I32])] [])
      (Contract.mk [] [("shared", .Global "shared" .F64)])
      (by decide) (by decide) (by decide)⟩

/-- C6: merge is observably pure: a call through the `&self` receiver
returns the receiver unchanged; the outcome is the same pure function of
the two input values on every call, so a failed merge leaves every
future merge over the same inputs unchanged; and a failed merge
produces an error string only, never a partial contract. -/
theorem C6_merge_pure (A B : Contract) :
    (A.mergeCall B).1 = A ∧
      ((A.mergeCall B).1).mergeCall B = A.mergeCall B ∧
      (∀ e, A.merge B = .error e → ∀ C, A.merge B ≠ .ok C) := by
  refine ⟨rfl, rfl, fun e he C hc => ?_⟩
  rw [he] at hc
  exact Except.noConfusion hc

theorem mergeMap_singleton_conflict {α β : Type} [DecidableEq α] [DecidableEq β]
    (errMsg : α → β → β → String) (k : α) (v w : β) (hvw : w ≠ v) :
    mergeMap errMsg [(k, v)] [(k, w)] = .error (errMsg k v w) := by
  have hlook : mapGet [(k, v)] k = some v := by simp [mapGet]
  rw [mergeMap_cons, hlook]
  exact if_pos hvw

/-- C7: structural equality of function entities is order-sensitive:
with the same identity and the same multisets of parameter and result
types but a different order, the two entities are unequal, and merging
two contracts that map a shared key to the two entities fails with a
conflict, for imports and for exports alike. -/
theorem C7_order_sensitive (ns nm : String) (ps ps' rs rs' : List WasmType)
    (_hp : ps.Perm ps') (_hr : rs.Perm rs') (hne : ps ≠ ps' ∨ rs ≠ rs') :
    Import.Func ns nm ps rs ≠ Import.Func ns nm ps' rs' ∧
      Export.Func nm ps rs ≠ Export.Func nm ps' rs' ∧
      (∃ e, (Contract.mk [((ns, nm), .Func ns nm ps rs)] []).merge
        (Contract.mk [((ns, nm), .Func ns nm ps' rs')] []) = .error e) ∧
      (∃ e, (Contract.mk [] [(nm, .Func nm ps rs)]).merge
        (Contract.mk [] [(nm, .Func nm ps' rs')]) = .error e) := by
  have hneq : ¬(ps = ps' ∧ rs = rs') := by
    rintro ⟨h1, h2⟩
    rcases hne with h | h
    · exact h h1
    · exact h h2
  have himp : Import.Func ns nm ps rs ≠ Import.Func ns nm ps' rs' := by
    intro h
    rw [Import.Func.injEq] at h
    exact hneq ⟨h.2.2.1, h.2.2.2⟩
  have hexp : Export.Func nm ps rs ≠ Export.Func nm ps' rs' := by
    intro h
    rw [Export.Func.injEq] at h
    exact hneq ⟨h.2.1, h.2.2⟩
  have hmi := mergeMap_singleton_conflict importConflictMsg (ns, nm)
    (Import.Func ns nm ps rs) (Import.Func ns nm ps' rs') (Ne.symm himp)
  have hme := mergeMap_singleton_conflict exportConflictMsg nm
    (Export.Func nm ps rs) (Export.Func nm ps' rs') (Ne.symm hexp)
  refine ⟨himp, hexp,
    ⟨importConflictMsg (ns, nm) (Import.Func ns nm ps rs) (Import.Func ns nm ps' rs'), ?_⟩,
    ⟨exportConflictMsg nm (Export.Func nm ps rs) (Export.Func nm ps' rs'), ?_⟩⟩
  · simp only [merge_def]
    rw [hmi]
  · simp only [merge_def, mergeMap_nil]
    rw [hme]

/-- C7 witness: parameter lists `[i32, i64]` and `[i64, i32]` — the same
multiset in a different order. -/
theorem C7_order_sensitive_witness :
    ([WasmType.I32, .I64] : List WasmType).Perm [WasmType.I64, .I32] ∧
      ([WasmType.I32] : List WasmType).Perm [WasmType.I32] ∧
      (([WasmType.I32, .I64] : List WasmType) ≠ [WasmType.I64, .I32] ∨
        ([WasmType.I32] : List WasmType) ≠ [WasmType.I32]) ∧
      (Import.Func "env" "f" [.I32, .I64] [.I32] ≠ Import.Func "env" "f" [.I64, .I32] [.I32] ∧
        Export.Func "f" [.I32, .I64] [.I32] ≠ Export.Func "f" [.I64, .I32] [.I32] ∧
        (∃ e, (Contract.mk [(("env", "f"), .Func "env" "f" [.I32, .I64] [.I32])] []).merge
          (Contract.mk [(("env", "f"), .Func "env" "f" [.I64, .I32] [.I32])] []) = .error e) ∧
        (∃ e, (Contract.mk [] [("f", .Func "f" [.I32, .I64] [.I32])]).merge
          (Contract.mk [] [("f", .Func "f" [.I64, .I32] [.I32])]) = .error e)) :=
  ⟨by decide, by decide, by decide,
    C7_order_sensitive "env" "f" [.I32, .I64] [.I64, .I32] [.I32] [.I32]
      (by decide) (by decide) (by decide)⟩

/-- C8: key derivation is a pure function of the identity fields alone:
for both import variants `get_key` is the `(namespace, name)` pair and
for both export variants it is the name, whatever the signature fields
(`params`, `result`, `var_type`) hold. -/
theorem C8_get_key_identity_only (ns nm : String) (ps rs : List WasmType) (t : WasmType) :
    (Import.Func ns nm ps rs).get_key = (ns, nm) ∧
      (Import.Global ns nm t).get_key = (ns, nm) ∧
      (Export.Func nm ps rs).get_key = nm ∧
      (Export.Global nm t).get_key = nm :=
  ⟨rfl, rfl, rfl, rfl⟩

/-- C9: the `Default` contract (both maps empty) is a two-sided identity
for merge: merging any contract with it, on either side, succeeds and
returns the contract itself. -/
theorem C9_merge_empty_identity (A : Contract) (hA : A.wf) :
    A.merge default = .ok A ∧ Contract.merge default A = .ok A := by
  constructor
  · rfl
  · have h1 : mergeMap importConflictMsg [] A.imports = .ok A.imports := by
      have h := @mergeMap_disjoint_append _ _ _ _ importConflictMsg A.imports []
        hA.1 (fun p _ => rfl)
      simpa using h
    have h2 : mergeMap exportConflictMsg [] A.exports = .ok A.exports := by
      have h := @mergeMap_disjoint_append _ _ _ _ exportConflictMsg A.exports []
        hA.2 (fun p _ => rfl)
      simpa using h
    show Contract.merge { imports := [], exports := [] } A = .ok A
    simp only [merge_def]
    rw [h1, h2]

/-- C9 witness: contract 3 of the `merging_works` test. -/
theorem C9_merge_empty_identity_witness :
    contract3.wf ∧
      (contract3.merge default = .ok contract3 ∧
        Contract.merge default contract3 = .ok contract3) :=
  ⟨by decide, C9_merge_empty_identity contract3 (by decide)⟩

/-- C10: merge copies entries verbatim and never rekeys an entity: if in
both inputs every entry stores an entity whose `get_key` equals the key
it is filed under, every entry of a successful merge result does too. -/
theorem C10_merge_preserves_key_consistency (A B C : Contract)
    (hA : A.keyConsistent) (hB : B.keyConsistent) (h : A.merge B = .ok C) :
    C.keyConsistent := by
  obtain ⟨h1, h2⟩ := contract_merge_ok_elim h
  constructor
  · intro p hp
    rcases mergeMap_ok_mem h1 p hp with hmem | hmem
    · exact hA.1 p hmem
    · exact hB.1 p hmem
  · intro p hp
    rcases mergeMap_ok_mem h2 p hp with hmem | hmem
    · exact hA.2 p hmem
    · exact hB.2 p hmem

/-- C10 witness: merging contracts 1 and 5 of the `merging_works` test
(one import, one export, both filed under their derived keys). -/
theorem C10_merge_preserves_key_consistency_witness :
    contract1.keyConsistent ∧ contract5.keyConsistent ∧
      contract1.merge contract5 =
        .ok { imports := contract1.imports, exports := contract5.exports } ∧
      Contract.keyConsistent { imports := contract1.imports, exports := contract5.exports } :=
  ⟨by decide, by decide, rfl,
    C10_merge_preserves_key_consistency contract1 contract5
      { imports := contract1.imports, exports := contract5.exports }
      (by decide) (by decide) rfl⟩
